import Mathlib

/-!
Verification of the transaction restore pipeline
(`storage/backup/backup-cli/src/backup_types/transaction/restore.rs`).

The shallow embedding below translates the pipeline into pure Lean
functions.  Machine integers (`Version = u64`) are modelled as `Nat`;
the only place the width matters is `Version::max_value()`, modelled
explicitly as `versionMax = 2^64 - 1`.  The asynchronous streams of the
source deliver items to the consumer in submission order (the ordered
buffering combinators guarantee this), so each stream is modelled as the
list of items it delivers, and a run is modelled by the list of effects
it performs on its collaborators together with its `Result`.

External collaborators (backup storage, the cryptographic verifiers,
the manifest self-check) are modelled as function parameters: the
pipeline only consumes their pass/fail contracts.
-/

namespace TxnRestore

/-- `Version::max_value()` for the 64-bit `Version` type (versions are
modelled as `Nat`). -/
def versionMax : Nat := 2 ^ 64 - 1

/-- One record of a transaction chunk file: the
`(Transaction, TransactionInfo, Vec<ContractEvent>, WriteSet)` tuple read by
`LoadedChunk::load`.  The payloads are opaque to the pipeline, so each
component is abstracted to `Nat` (events to `List Nat`).  The source pushes
the four components into four parallel vectors that are always drained with
identical index ranges; we keep them zipped, as they are read. -/
structure Record where
  txn : Nat
  txn_info : Nat
  events : List Nat
  write_set : Nat
deriving DecidableEq

/-- A chunk descriptor from a backup manifest
(`backup_types/transaction/manifest.rs::TransactionChunk`): the declared
version span plus the storage handles of the records blob and the proof
blob (handles abstracted to `Nat`). -/
structure TransactionChunk where
  first_version : Nat
  last_version : Nat
  transactions : Nat
  proof : Nat
deriving DecidableEq

/-- A transaction backup manifest: its ordered list of chunk descriptors.
(The manifest's own redundant `first_version`/`last_version` fields are only
consumed by its external self-check, modelled as a predicate parameter
below.) -/
structure TransactionBackup where
  chunks : List TransactionChunk
deriving DecidableEq

/-- The range proof of a chunk, opaque to the pipeline. -/
abbrev RangeProof := Nat

/-- A `LedgerInfoWithSignatures` checkpoint, opaque to the pipeline. -/
abbrev LedgerInfo := Nat

/-- The trust anchor: `EpochHistory::verify_ledger_info` is consumed only
through its pass/fail contract. -/
abbrev EpochHistory := LedgerInfo → Bool

/-- The pass/fail contract of `TransactionListWithProof::verify`: given the
checkpoint, the declared first version, the record sequence and the range
proof, does the accumulator range proof authenticate the records? -/
abbrev TxnListVerify := LedgerInfo → Nat → List Record → RangeProof → Bool

/-- The `BackupStorage` collaborator: fetching a handle either yields the
decoded content or fails (I/O or deserialization error). -/
structure BackupStorage where
  manifests : Nat → Option TransactionBackup
  recordFiles : Nat → Option (List Record)
  proofFiles : Nat → Option (RangeProof × LedgerInfo)

/-- The errors raised by the pipeline (`anyhow` messages in the source,
given structured constructors here):
* `fetchError h` — storage fetch/deserialization failure for handle `h`;
* `manifestInvalid` — a manifest failed its self-check (`m.verify()`);
* `chunkGap expected got` — "Chunk range not consecutive. expecting
  {expected}, got {got}";
* `countMismatch first last count` — "Number of items in chunks doesn't
  match that in manifest. first_version: {first}, last_version: {last},
  items in chunk: {count}";
* `untrustedCheckpoint` — `EpochHistory::verify_ledger_info` failed;
* `authenticationFailed` — `TransactionListWithProof::verify` failed;
* `streamEmpty` — "LoadedChunk stream is empty.". -/
inductive RestoreError
  | fetchError (handle : Nat)
  | manifestInvalid
  | chunkGap (expected got : Nat)
  | countMismatch (first_version last_version count : Nat)
  | untrustedCheckpoint
  | authenticationFailed
  | streamEmpty
deriving DecidableEq

/-- A verified chunk (`LoadedChunk`), as produced by `LoadedChunk::load`:
the manifest entry, the record sequence (the four parallel vectors, kept
zipped), the range proof and the checkpoint. -/
structure LoadedChunk where
  manifest : TransactionChunk
  records : List Record
  range_proof : RangeProof
  ledger_info : LedgerInfo
deriving DecidableEq

/-- `LoadedChunk::load`: read the records blob, check the record count
against the declared span, fetch the proof blob, verify the checkpoint
against the trust anchor when one is supplied, then verify the range proof
at the declared first version; any failure aborts the load. -/
def LoadedChunk.load (storage : BackupStorage) (tlv : TxnListVerify)
    (manifest : TransactionChunk) (epoch_history : Option EpochHistory) :
    Except RestoreError LoadedChunk :=
  match storage.recordFiles manifest.transactions with
  | none => .error (.fetchError manifest.transactions)
  | some records =>
    if manifest.first_version + records.length = manifest.last_version + 1 then
      match storage.proofFiles manifest.proof with
      | none => .error (.fetchError manifest.proof)
      | some (range_proof, ledger_info) =>
        let ehOk := match epoch_history with
          | some eh => eh ledger_info
          | none => true
        if ehOk then
          if tlv ledger_info manifest.first_version records range_proof then
            .ok ⟨manifest, records, range_proof, ledger_info⟩
          else .error .authenticationFailed
        else .error .untrustedCheckpoint
    else .error (.countMismatch manifest.first_version manifest.last_version records.length)

/-- The contiguity scan of `loaded_chunk_stream` (the `scan` combinator with
state `last_chunk_last_version` initialized to `0`): a chunk whose
`first_version` is not `last_chunk_last_version + 1` is a hard error, except
when the state is still `0`. -/
def scanContiguous (last_chunk_last_version : Nat) :
    List TransactionChunk → Except RestoreError (List TransactionChunk)
  | [] => .ok []
  | chunk :: rest =>
    if last_chunk_last_version ≠ 0 ∧ chunk.first_version ≠ last_chunk_last_version + 1 then
      .error (.chunkGap (last_chunk_last_version + 1) chunk.first_version)
    else
      (scanContiguous chunk.last_version rest).map (chunk :: ·)

/-- Chunk discovery on the flattened chunk sequence of the manifests:
`try_take_while (c.first_version <= target_version)` followed by the
contiguity scan. -/
def discoverChunks (target_version : Nat) (chunks : List TransactionChunk) :
    Except RestoreError (List TransactionChunk) :=
  scanContiguous 0 (chunks.takeWhile fun c => decide (c.first_version ≤ target_version))

/-- `TransactionRestoreOpt::replay_from_version` combined with
`save_before_replay_version`'s cutoff computation (`first_to_replay`):
`max(self.replay_from_version.unwrap_or(Version::MAX), next_expected_version)`. -/
def firstToReplay (replay_from_version : Option Nat) (next_expected_version : Nat) :
    Nat :=
  max (replay_from_version.getD versionMax) next_expected_version

/-- The observable operations a run performs on its collaborators.
`saveTransactions first count` is a `RestoreHandler::save_transactions` call
covering versions `[first, first + count)`; the gauges are the
`TRANSACTION_SAVE_VERSION` and `VERIFY_TRANSACTION_VERSION` metrics;
`replayBatch`/`commitBatch` are `ChunkExecutor::replay`/`commit` calls. -/
inductive Effect
  | fetchManifest (handle : Nat)
  | confirmOrSaveFrozenSubtrees (first_version : Nat)
  | saveTransactions (first_version : Nat) (count : Nat)
  | setSaveGauge (version : Nat)
  | resetStateStore
  | replayBatch (count : Nat)
  | commitBatch
  | setVerifyGauge (version : Nat)
deriving DecidableEq

/-- Does the effect mutate the target store?  (Gauge updates and fetches do
not; saving frozen subtrees, raw saves, state-store reset, replay and commit
do.) -/
def Effect.isMutation : Effect → Bool
  | .fetchManifest _ => false
  | .confirmOrSaveFrozenSubtrees _ => true
  | .saveTransactions _ _ => true
  | .setSaveGauge _ => false
  | .resetStateStore => true
  | .replayBatch _ => true
  | .commitBatch => true
  | .setVerifyGauge _ => false

/-- The outcome of the per-chunk closure of `save_before_replay_version`:
which records are passed to the raw-save call, which are forwarded to the
replay stream, and the effects performed. -/
structure ChunkOutcome where
  to_save_first : Nat
  to_save : List Record
  to_replay : List Record
  effects : List Effect
deriving DecidableEq

/-- The per-chunk body of `save_before_replay_version`: clip the chunk to
`target_version` (dropping trailing records and adjusting `last_version`),
then, when `first_version < first_to_replay`, drain the leading
`min(first_to_replay, last_version + 1) - first_version` records into a
`save_transactions` call (updating the save gauge) and forward the rest to
the replay stream. -/
def processChunk (first_to_replay target_version : Nat) (chunk : LoadedChunk) :
    ChunkOutcome :=
  let first := chunk.manifest.first_version
  let last0 := chunk.manifest.last_version
  let recs0 := chunk.records
  let clipped :=
    if target_version < last0 then (target_version, recs0.take (target_version - first + 1))
    else (last0, recs0)
  let last := clipped.1
  let recs := clipped.2
  if first < first_to_replay then
    let num_to_save := min first_to_replay (last + 1) - first
    let to_save := recs.take num_to_save
    let last_saved := first + num_to_save - 1
    { to_save_first := first
      to_save := to_save
      to_replay := recs.drop num_to_save
      effects := [.saveTransactions first to_save.length, .setSaveGauge last_saved] }
  else
    { to_save_first := first, to_save := [], to_replay := recs, effects := [] }

/-- The set of versions a chunk contributes to the raw-save call: the
`save_transactions` call receives `first_version` and `to_save`, hence
covers `[first_version, first_version + to_save.length)`. -/
def chunkSavedVersions (first_to_replay target_version : Nat) (chunk : LoadedChunk) :
    Finset Nat :=
  let o := processChunk first_to_replay target_version chunk
  Finset.Ico o.to_save_first (o.to_save_first + o.to_save.length)

/-- The set of versions a chunk forwards to the replay stream: the records
after the drained prefix, i.e. versions
`[first_version + to_save.length, first_version + to_save.length + to_replay.length)`. -/
def chunkReplayedVersions (first_to_replay target_version : Nat) (chunk : LoadedChunk) :
    Finset Nat :=
  let o := processChunk first_to_replay target_version chunk
  Finset.Ico (o.to_save_first + o.to_save.length)
    (o.to_save_first + o.to_save.length + o.to_replay.length)

/-- All versions raw-saved over a run. -/
def runSavedVersions (first_to_replay target_version : Nat)
    (chunks : List LoadedChunk) : Finset Nat :=
  chunks.foldr (fun c acc => chunkSavedVersions first_to_replay target_version c ∪ acc) ∅

/-- All versions forwarded to the replay stream over a run. -/
def runReplayedVersions (first_to_replay target_version : Nat)
    (chunks : List LoadedChunk) : Finset Nat :=
  chunks.foldr (fun c acc => chunkReplayedVersions first_to_replay target_version c ∪ acc) ∅

/-- Fetch and decode the manifests of the given handles, in order, recording
the fetch effects; a failed fetch is `FetchError` annotated with the
handle. -/
def fetchManifests (storage : BackupStorage) :
    List Nat → List Effect × Except RestoreError (List TransactionBackup)
  | [] => ([], .ok [])
  | h :: rest =>
    match storage.manifests h with
    | none => ([.fetchManifest h], .error (.fetchError h))
    | some m =>
      let (tr, res) := fetchManifests storage rest
      (.fetchManifest h :: tr, res.map (m :: ·))

/-- Run each manifest's self-check (`m.verify()`, an external collaborator
consumed through its pass/fail contract `mverify`). -/
def verifyManifests (mverify : TransactionBackup → Bool) :
    List TransactionBackup → Except RestoreError (List TransactionBackup)
  | [] => .ok []
  | m :: rest =>
    if mverify m then (verifyManifests mverify rest).map (m :: ·)
    else .error .manifestInvalid

/-- Load every discovered chunk, in order; the stream fails at the first
failing load. -/
def loadChunks (storage : BackupStorage) (tlv : TxnListVerify) (eh : Option EpochHistory) :
    List TransactionChunk → Except RestoreError (List LoadedChunk)
  | [] => .ok []
  | c :: rest => do
    let lc ← LoadedChunk.load storage tlv c eh
    let rest' ← loadChunks storage tlv eh rest
    .ok (lc :: rest')

/-- `loaded_chunk_stream`: fetch and self-check the manifests, flatten to
the chunk-descriptor stream, truncate at `target_version`, enforce
contiguity, and load/verify every chunk.  The ordered buffering combinators
deliver items in submission order, so the stream is modelled by the ordered
list of chunks it delivers (or its first error). -/
def loadedChunkStream (storage : BackupStorage) (tlv : TxnListVerify)
    (mverify : TransactionBackup → Bool) (eh : Option EpochHistory)
    (target_version : Nat) (handles : List Nat) :
    List Effect × Except RestoreError (List LoadedChunk) :=
  let (tr, res) := fetchManifests storage handles
  (tr, do
    let ms ← res
    let ms ← verifyManifests mverify ms
    let chunks ← discoverChunks target_version (ms.flatMap TransactionBackup.chunks)
    loadChunks storage tlv eh chunks)

/-- `save_before_replay_version` over the whole stream: per-chunk effects in
stream order, and the concatenated replay stream. -/
def saveBeforeReplay (first_to_replay target_version : Nat) :
    List LoadedChunk → List Effect × List Record
  | [] => ([], [])
  | c :: rest =>
    let o := processChunk first_to_replay target_version c
    let (tr, rs) := saveBeforeReplay first_to_replay target_version rest
    (o.effects ++ tr, o.to_replay ++ rs)

/-- `BATCH_SIZE` (non-test configuration). -/
def BATCH_SIZE : Nat := 10000

/-- `replay_transactions`' batching loop: `try_chunks(BATCH_SIZE)` followed
by a replay and a commit per batch.  (The committed-version gauge readback
comes from the execution engine and is not modelled.) -/
def batchedReplayEffects : List Record → List Effect
  | [] => []
  | r :: rest =>
    .replayBatch (r :: rest.take (BATCH_SIZE - 1)).length :: .commitBatch ::
      batchedReplayEffects (rest.drop (BATCH_SIZE - 1))
termination_by rs => rs.length
decreasing_by
  simp only [List.length_drop, List.length_cons]
  omega

/-- `RestoreRunMode`; the `Restore` variant's `RestoreHandler` is abstracted
to the one value the pipeline reads from it,
`get_next_expected_transaction_version()`. -/
inductive RestoreRunMode
  | restore (next_expected_version : Nat)
  | verify
deriving DecidableEq

/-- The controller state relevant to `run_impl`: the manifest handles, the
optional replay-from version, and the global options actually consumed
(`target_version`, `run_mode`).  The concurrency knobs only size buffers and
do not affect the delivered order. -/
structure TransactionRestoreBatchController where
  manifest_handles : List Nat
  replay_from_version : Option Nat
  target_version : Nat
  run_mode : RestoreRunMode
deriving DecidableEq

/-- `run_impl`: empty handle list succeeds immediately; otherwise build the
loaded-chunk stream, peek its first chunk (`confirm_or_save_frozen_subtrees`
fails with "LoadedChunk stream is empty." when there is none, and saves the
frozen subtrees in restore mode), then either split each chunk between the
raw-save call and the replay stream and batch-replay the latter (restore
mode), or fold the stream advancing the verified-version gauge (verify
mode).  Effects are listed per stage; the streams interleave them, but the
claims below concern only their presence and payloads. -/
def run_impl (storage : BackupStorage) (tlv : TxnListVerify)
    (mverify : TransactionBackup → Bool)
    (ctl : TransactionRestoreBatchController) (eh : Option EpochHistory) :
    List Effect × Except RestoreError Unit :=
  if ctl.manifest_handles.isEmpty then ([], .ok ())
  else
    let (tr, res) :=
      loadedChunkStream storage tlv mverify eh ctl.target_version ctl.manifest_handles
    match res with
    | .error e => (tr, .error e)
    | .ok [] => (tr, .error .streamEmpty)
    | .ok (c0 :: rest) =>
      let chunks := c0 :: rest
      let first_version := c0.manifest.first_version
      match ctl.run_mode with
      | .restore next_expected_version =>
        let tr := tr ++ [.confirmOrSaveFrozenSubtrees first_version]
        let ftr := firstToReplay ctl.replay_from_version next_expected_version
        let (str, to_replay) := saveBeforeReplay ftr ctl.target_version chunks
        match to_replay with
        | [] => (tr ++ str, .ok ())
        | r :: rs => (tr ++ str ++ .resetStateStore :: batchedReplayEffects (r :: rs), .ok ())
      | .verify =>
        (tr ++ chunks.map fun lc => .setVerifyGauge lc.manifest.last_version, .ok ())

/-! Sample values used by the concrete witnesses below. -/

/-- A list of `n` distinct records. -/
def sampleRecords (n : Nat) : List Record := (List.range n).map fun i => ⟨i, i, [], i⟩

/-- A chunk descriptor spanning `[100, 104]`. -/
def sampleChunk : TransactionChunk := ⟨100, 104, 1, 2⟩

/-- A storage collaborator serving the given record list for every records
handle and a fixed proof pair for every proof handle. -/
def sampleStorage (recs : List Record) : BackupStorage where
  manifests := fun _ => some ⟨[sampleChunk]⟩
  recordFiles := fun _ => some recs
  proofFiles := fun _ => some (0, 7)

/-! Helper lemmas about the per-chunk splitter. -/

theorem processChunk_to_save_first (ftr target : Nat) (lc : LoadedChunk) :
    (processChunk ftr target lc).to_save_first = lc.manifest.first_version := by
  simp only [processChunk]
  split_ifs <;> rfl

theorem processChunk_save_length (ftr target : Nat) (lc : LoadedChunk)
    (hlen : lc.records.length = lc.manifest.last_version + 1 - lc.manifest.first_version)
    (hfl : lc.manifest.first_version ≤ lc.manifest.last_version)
    (hft : lc.manifest.first_version ≤ target) :
    (processChunk ftr target lc).to_save.length =
      min ftr (min lc.manifest.last_version target + 1) - lc.manifest.first_version := by
  simp only [processChunk]
  split_ifs with h1 h2 h2 <;>
    simp only [List.length_take, List.length_drop, List.length_nil, hlen] <;> omega

theorem processChunk_replay_length (ftr target : Nat) (lc : LoadedChunk)
    (hlen : lc.records.length = lc.manifest.last_version + 1 - lc.manifest.first_version)
    (hfl : lc.manifest.first_version ≤ lc.manifest.last_version)
    (hft : lc.manifest.first_version ≤ target) :
    (processChunk ftr target lc).to_replay.length =
      min lc.manifest.last_version target + 1 - max ftr lc.manifest.first_version := by
  simp only [processChunk]
  split_ifs with h1 h2 h2 <;>
    simp only [List.length_take, List.length_drop, hlen] <;> omega

/-- C5: for a chunk whose records blob is readable, `LoadedChunk::load`
fails with the count-mismatch error (naming the declared span and the actual
count) exactly when the number of deserialized records differs from
`last_version - first_version + 1`, and otherwise never produces a
count-mismatch error. -/
theorem chunk_count_check (storage : BackupStorage) (tlv : TxnListVerify)
    (manifest : TransactionChunk) (eh : Option EpochHistory) (recs : List Record)
    (hfetch : storage.recordFiles manifest.transactions = some recs) :
    (manifest.first_version + recs.length ≠ manifest.last_version + 1 →
      LoadedChunk.load storage tlv manifest eh =
        .error (.countMismatch manifest.first_version manifest.last_version recs.length))
    ∧ (manifest.first_version + recs.length = manifest.last_version + 1 →
      ∀ a b c, LoadedChunk.load storage tlv manifest eh ≠ .error (.countMismatch a b c)) := by
  constructor
  · intro hne
    simp only [LoadedChunk.load, hfetch]
    rw [if_neg hne]
  · intro heq a b c
    simp only [LoadedChunk.load, hfetch]
    rw [if_pos heq]
    cases hpf : storage.proofFiles manifest.proof with
    | none => simp
    | some p =>
      obtain ⟨rp, li⟩ := p
      simp only
      split_ifs <;> simp

/-- C5 witness: a chunk declaring span `[100, 104]` with only 4 records
fails load with the count-mismatch error naming the span and the count,
while the same chunk with 5 records never raises a count mismatch. -/
theorem chunk_count_check_witness :
    LoadedChunk.load (sampleStorage (sampleRecords 4)) (fun _ _ _ _ => true) sampleChunk none =
      .error (.countMismatch 100 104 4)
    ∧ ∀ a b c,
      LoadedChunk.load (sampleStorage (sampleRecords 5)) (fun _ _ _ _ => true) sampleChunk none ≠
        .error (.countMismatch a b c) := by
  constructor
  · exact (chunk_count_check (sampleStorage (sampleRecords 4)) (fun _ _ _ _ => true)
      sampleChunk none (sampleRecords 4) rfl).1 (by decide)
  · exact (chunk_count_check (sampleStorage (sampleRecords 5)) (fun _ _ _ _ => true)
      sampleChunk none (sampleRecords 5) rfl).2 (by decide)

/-- C2: for a chunk with readable blobs and a correct record count,
`LoadedChunk::load` fails when the range proof does not verify against the
chunk's own checkpoint at the declared first version, fails when a supplied
trust anchor rejects the checkpoint's signatures, and succeeds — exposing
exactly the declared records, proof and checkpoint — when every performed
check passes; a chunk failing any check is never returned. -/
theorem loaded_chunk_authentication (storage : BackupStorage) (tlv : TxnListVerify)
    (manifest : TransactionChunk) (eh : Option EpochHistory)
    (recs : List Record) (rp : RangeProof) (li : LedgerInfo)
    (hrec : storage.recordFiles manifest.transactions = some recs)
    (hcount : manifest.first_version + recs.length = manifest.last_version + 1)
    (hproof : storage.proofFiles manifest.proof = some (rp, li)) :
    (tlv li manifest.first_version recs rp = false →
      (∀ anchor, eh = some anchor → anchor li = true) →
      LoadedChunk.load storage tlv manifest eh = .error .authenticationFailed)
    ∧ (∀ anchor, eh = some anchor → anchor li = false →
      LoadedChunk.load storage tlv manifest eh = .error .untrustedCheckpoint)
    ∧ ((∀ anchor, eh = some anchor → anchor li = true) →
      tlv li manifest.first_version recs rp = true →
      LoadedChunk.load storage tlv manifest eh = .ok ⟨manifest, recs, rp, li⟩) := by
  refine ⟨?_, ?_, ?_⟩
  · intro htlv hanchor
    simp only [LoadedChunk.load, hrec, hproof]
    rw [if_pos hcount]
    cases eh with
    | none => simp [htlv]
    | some anchor => simp [htlv, hanchor anchor rfl]
  · intro anchor heh hanchor
    subst heh
    simp only [LoadedChunk.load, hrec, hproof]
    rw [if_pos hcount]
    simp [hanchor]
  · intro hanchor htlv
    simp only [LoadedChunk.load, hrec, hproof]
    rw [if_pos hcount]
    cases eh with
    | none => simp [htlv]
    | some anchor => simp [htlv, hanchor anchor rfl]

/-- C2 witness: with 5 records for the `[100, 104]` chunk, a failing range
proof aborts the load, a rejecting trust anchor aborts the load, and with
both checks passing the load returns exactly the declared records. -/
theorem loaded_chunk_authentication_witness :
    LoadedChunk.load (sampleStorage (sampleRecords 5)) (fun _ _ _ _ => false) sampleChunk none =
      .error .authenticationFailed
    ∧ LoadedChunk.load (sampleStorage (sampleRecords 5)) (fun _ _ _ _ => true) sampleChunk
        (some fun _ => false) = .error .untrustedCheckpoint
    ∧ LoadedChunk.load (sampleStorage (sampleRecords 5)) (fun _ _ _ _ => true) sampleChunk
        (some fun _ => true) = .ok ⟨sampleChunk, sampleRecords 5, 0, 7⟩ := by
  refine ⟨?_, ?_, ?_⟩
  · exact (loaded_chunk_authentication (sampleStorage (sampleRecords 5)) (fun _ _ _ _ => false)
      sampleChunk none (sampleRecords 5) 0 7 rfl (by decide) rfl).1 rfl nofun
  · exact (loaded_chunk_authentication (sampleStorage (sampleRecords 5)) (fun _ _ _ _ => true)
      sampleChunk (some fun _ => false) (sampleRecords 5) 0 7 rfl (by decide) rfl).2.1 _ rfl rfl
  · refine (loaded_chunk_authentication (sampleStorage (sampleRecords 5)) (fun _ _ _ _ => true)
      sampleChunk (some fun _ => true) (sampleRecords 5) 0 7 rfl (by decide) rfl).2.2 ?_ rfl
    intro anchor h
    injection h with h
    subst h
    rfl

/-- C9: a run whose manifest-handle list is empty returns success
immediately, performing no fetch, no persistence and no replay (its effect
trace is empty). -/
theorem empty_manifest_handles (storage : BackupStorage) (tlv : TxnListVerify)
    (mverify : TransactionBackup → Bool) (eh : Option EpochHistory)
    (rfv : Option Nat) (target : Nat) (mode : RestoreRunMode) :
    run_impl storage tlv mverify ⟨[], rfv, target, mode⟩ eh = ([], .ok ()) := rfl

/-- C3 counterexample: with the replay-from-version argument absent and the
target store expecting version 5 next, the computed cutoff is
`Version::MAX`, not the store's next expected version as the claim states:
an absent argument disables replay entirely rather than replaying from the
store's next expected version. -/
theorem replay_cutoff_counterexample : firstToReplay none 5 ≠ 5 := by decide

/-- C3 amended: with the replay-from-version argument present the cutoff is
`max(replay_from_version, next_expected_version)`; with it absent the
cutoff is `max(Version::MAX, next_expected_version)` — i.e. `Version::MAX`
for any real (64-bit) next-expected version — so that an in-range chunk
contributes nothing to the replay stream: absence disables replay rather
than replaying from the store's next expected version. -/
theorem replay_cutoff_amended (next_expected : Nat) (lc : LoadedChunk) (target : Nat)
    (hlen : lc.records.length = lc.manifest.last_version + 1 - lc.manifest.first_version)
    (hfl : lc.manifest.first_version ≤ lc.manifest.last_version)
    (hft : lc.manifest.first_version ≤ target) (htm : target < versionMax) :
    (∀ v : Nat, firstToReplay (some v) next_expected = max v next_expected)
    ∧ firstToReplay none next_expected = max versionMax next_expected
    ∧ (processChunk (firstToReplay none next_expected) target lc).to_replay = [] := by
  refine ⟨fun v => rfl, rfl, ?_⟩
  have hmax : versionMax ≤ firstToReplay none next_expected := le_max_left _ _
  have h := processChunk_replay_length (firstToReplay none next_expected) target lc hlen hfl hft
  have hlen0 : (processChunk (firstToReplay none next_expected) target lc).to_replay.length = 0 := by
    rw [h]
    omega
  exact List.eq_nil_of_length_eq_zero hlen0

/-- C3 witness: concrete cutoffs (present argument 7 against next expected
5, absent argument against next expected 5) and a concrete chunk
`[100, 104]` under target 150 whose replay share is empty when the argument
is absent. -/
theorem replay_cutoff_amended_witness :
    firstToReplay (some 7) 5 = max 7 5
    ∧ firstToReplay none 5 = max versionMax 5
    ∧ (processChunk (firstToReplay none 5) 150 ⟨sampleChunk, sampleRecords 5, 0, 7⟩).to_replay
        = [] := by
  have h := replay_cutoff_amended 5 ⟨sampleChunk, sampleRecords 5, 0, 7⟩ 150
    (by decide) (by decide) (by decide) (by decide)
  exact ⟨h.1 7, h.2.1, h.2.2⟩

/-! The contiguity scan: helper predicates and lemmas. -/

/-- Does a chunk pass the contiguity check from scan state
`last_chunk_last_version`?  (The scan skips the check while its state is
still `0`.) -/
def passesScan (last_chunk_last_version : Nat) (c : TransactionChunk) : Bool :=
  last_chunk_last_version == 0 || c.first_version == last_chunk_last_version + 1

/-- Does every chunk of the list pass the contiguity scan started in the
given state? -/
def cleanUpto (last_chunk_last_version : Nat) : List TransactionChunk → Bool
  | [] => true
  | c :: rest => passesScan last_chunk_last_version c && cleanUpto c.last_version rest

theorem not_scanCheck_of_passes {s : Nat} {c : TransactionChunk}
    (h : passesScan s c = true) : ¬(s ≠ 0 ∧ c.first_version ≠ s + 1) := by
  simp only [passesScan, Bool.or_eq_true, beq_iff_eq] at h
  tauto

theorem scanContiguous_cons (s : Nat) (c : TransactionChunk)
    (rest : List TransactionChunk) :
    scanContiguous s (c :: rest) =
      if s ≠ 0 ∧ c.first_version ≠ s + 1 then
        .error (.chunkGap (s + 1) c.first_version)
      else (scanContiguous c.last_version rest).map (c :: ·) := rfl

/-- The item sequence the contiguity scan delivers to the downstream
consumer.  The source's `scan` yields one `Result` item per input chunk
(`Ok` chunks until the first violation, then the `Err`), and the
downstream `try_`-combinators cancel the stream at the first `Err`, so the
consumer sees every chunk before the first violation, then the gap error,
and nothing further.  (`scanContiguous` above is the collected view of the
same stage: all chunks when no violation occurs, or its first error.) -/
def scanContiguousItems (last_chunk_last_version : Nat) :
    List TransactionChunk → List (Except RestoreError TransactionChunk)
  | [] => []
  | chunk :: rest =>
    if last_chunk_last_version ≠ 0 ∧ chunk.first_version ≠ last_chunk_last_version + 1 then
      [.error (.chunkGap (last_chunk_last_version + 1) chunk.first_version)]
    else
      .ok chunk :: scanContiguousItems chunk.last_version rest

/-- The delivered item sequence of chunk discovery: target truncation, then
the contiguity scan, seen per item. -/
def discoverChunksItems (target_version : Nat) (chunks : List TransactionChunk) :
    List (Except RestoreError TransactionChunk) :=
  scanContiguousItems 0 (chunks.takeWhile fun c => decide (c.first_version ≤ target_version))

theorem scanContiguousItems_cons (s : Nat) (c : TransactionChunk)
    (rest : List TransactionChunk) :
    scanContiguousItems s (c :: rest) =
      if s ≠ 0 ∧ c.first_version ≠ s + 1 then
        [.error (.chunkGap (s + 1) c.first_version)]
      else .ok c :: scanContiguousItems c.last_version rest := rfl

theorem scanContiguousItems_of_ok :
    ∀ (l : List TransactionChunk) (s : Nat) (out : List TransactionChunk),
    scanContiguous s l = .ok out → scanContiguousItems s l = out.map Except.ok
  | [], s, out, h => by
    injection h with h
    subst h
    rfl
  | c :: rest, s, out, h => by
    rw [scanContiguous_cons] at h
    rw [scanContiguousItems_cons]
    by_cases hc : s ≠ 0 ∧ c.first_version ≠ s + 1
    · rw [if_pos hc] at h
      exact absurd h (by simp)
    · rw [if_neg hc] at h
      rw [if_neg hc]
      cases hrec : scanContiguous c.last_version rest with
      | error e =>
        rw [hrec] at h
        exact absurd h (by simp [Except.map])
      | ok out2 =>
        rw [hrec] at h
        simp only [Except.map] at h
        injection h with h
        subst h
        rw [scanContiguousItems_of_ok rest c.last_version out2 hrec]
        rfl

theorem scanContiguousItems_gap_of_clean :
    ∀ (A : List TransactionChunk) (s : Nat) (p q : TransactionChunk)
      (B : List TransactionChunk),
    cleanUpto s (A ++ [p]) = true → p.last_version ≠ 0 →
    q.first_version ≠ p.last_version + 1 →
    scanContiguousItems s (A ++ p :: q :: B) =
      (A ++ [p]).map Except.ok
        ++ [.error (.chunkGap (p.last_version + 1) q.first_version)]
  | [], s, p, q, B, hclean, hz, hgap => by
    simp only [List.nil_append, cleanUpto, Bool.and_eq_true] at hclean
    rw [List.nil_append, scanContiguousItems_cons, if_neg (not_scanCheck_of_passes hclean.1),
      scanContiguousItems_cons, if_pos ⟨hz, hgap⟩]
    rfl
  | a :: A, s, p, q, B, hclean, hz, hgap => by
    simp only [List.cons_append, cleanUpto, Bool.and_eq_true] at hclean
    rw [List.cons_append, scanContiguousItems_cons, if_neg (not_scanCheck_of_passes hclean.1),
      scanContiguousItems_gap_of_clean A a.last_version p q B hclean.2 hz hgap]
    rfl

/-- C4 counterexample: the chunk pair `[0, 0]`, `[5, 9]` (with target 100)
violates contiguity — `5 ≠ 0 + 1` — yet discovery succeeds and yields the
offending chunk, because the scan's `last_chunk_last_version != 0` guard
conflates "no previous chunk" with "previous chunk ended at version 0". -/
theorem chunk_gap_counterexample :
    discoverChunks 100 [⟨0, 0, 1, 2⟩, ⟨5, 9, 3, 4⟩] = .ok [⟨0, 0, 1, 2⟩, ⟨5, 9, 3, 4⟩]
    ∧ (5 : Nat) ≠ 0 + 1 := ⟨rfl, by decide⟩

/-- C4 amended: for consecutive chunk descriptors `p, q` in the discovered
stream (the scan runs over the manifest-flattened, target-truncated chunk
sequence, so the check also spans manifest boundaries), if
`p.last_version ≠ 0` — the scan state `0` doubles as "no previous chunk",
so a predecessor ending at version 0 escapes the check — and `p, q` is the
earliest violation (every earlier adjacent pair passes the scan), then the
stream delivers exactly the chunks before the violation followed by the gap
error naming the expected version `p.last_version + 1` and the actual
version `q.first_version`: the pre-violation chunks reach the consumer (and
in Restore mode may be raw-saved) before the error aborts the run, and
every chunk delivered downstream is one of the chunks preceding the
violation — in particular the offending chunk `q` itself is never
delivered. -/
theorem chunk_gap_amended (target : Nat) (A B : List TransactionChunk)
    (p q : TransactionChunk)
    (hin : ∀ c ∈ A ++ p :: q :: B, c.first_version ≤ target)
    (hclean : cleanUpto 0 (A ++ [p]) = true)
    (hz : p.last_version ≠ 0)
    (hgap : q.first_version ≠ p.last_version + 1) :
    discoverChunksItems target (A ++ p :: q :: B) =
      (A ++ [p]).map Except.ok
        ++ [.error (.chunkGap (p.last_version + 1) q.first_version)]
    ∧ ∀ c, Except.ok c ∈ discoverChunksItems target (A ++ p :: q :: B) →
        c ∈ A ++ [p] := by
  have hmain : discoverChunksItems target (A ++ p :: q :: B) =
      (A ++ [p]).map Except.ok
        ++ [.error (.chunkGap (p.last_version + 1) q.first_version)] := by
    unfold discoverChunksItems
    rw [List.takeWhile_eq_self_iff.mpr (by intro c hc; exact decide_eq_true (hin c hc))]
    exact scanContiguousItems_gap_of_clean A 0 p q B hclean hz hgap
  refine ⟨hmain, ?_⟩
  intro c hc
  rw [hmain, List.mem_append] at hc
  rcases hc with hc | hc
  · rw [List.mem_map] at hc
    obtain ⟨c2, hc2, heq⟩ := hc
    injection heq with heq
    subst heq
    exact hc2
  · simp at hc

/-- C4 witness: chunks `[1, 10]`, `[11, 20]`, `[30, 35]` under target 100
deliver the first two chunks and then the gap error expecting 21,
getting 30. -/
theorem chunk_gap_amended_witness :
    (∀ c ∈ [⟨1, 10, 1, 2⟩] ++ ⟨11, 20, 3, 4⟩ :: ⟨30, 35, 5, 6⟩ :: ([] : List TransactionChunk),
      c.first_version ≤ 100)
    ∧ discoverChunksItems 100 [⟨1, 10, 1, 2⟩, ⟨11, 20, 3, 4⟩, ⟨30, 35, 5, 6⟩] =
        [.ok ⟨1, 10, 1, 2⟩, .ok ⟨11, 20, 3, 4⟩, .error (.chunkGap 21 30)] :=
  ⟨by decide, (chunk_gap_amended 100 [⟨1, 10, 1, 2⟩] [] ⟨11, 20, 3, 4⟩ ⟨30, 35, 5, 6⟩
    (by decide) (by decide) (by decide) (by decide)).1⟩

/-! Interval characterizations of the per-chunk split. -/

theorem chunkSavedVersions_eq (ftr target : Nat) (lc : LoadedChunk)
    (hlen : lc.records.length = lc.manifest.last_version + 1 - lc.manifest.first_version)
    (hfl : lc.manifest.first_version ≤ lc.manifest.last_version)
    (hft : lc.manifest.first_version ≤ target) :
    chunkSavedVersions ftr target lc =
      Finset.Ico lc.manifest.first_version
        (min ftr (min lc.manifest.last_version target + 1)) := by
  simp only [chunkSavedVersions]
  rw [processChunk_to_save_first, processChunk_save_length ftr target lc hlen hfl hft]
  ext v
  simp only [Finset.mem_Ico]
  omega

theorem chunkReplayedVersions_eq (ftr target : Nat) (lc : LoadedChunk)
    (hlen : lc.records.length = lc.manifest.last_version + 1 - lc.manifest.first_version)
    (hfl : lc.manifest.first_version ≤ lc.manifest.last_version)
    (hft : lc.manifest.first_version ≤ target) :
    chunkReplayedVersions ftr target lc =
      Finset.Ico (max ftr lc.manifest.first_version)
        (min lc.manifest.last_version target + 1) := by
  simp only [chunkReplayedVersions]
  rw [processChunk_to_save_first, processChunk_save_length ftr target lc hlen hfl hft,
    processChunk_replay_length ftr target lc hlen hfl hft]
  ext v
  simp only [Finset.mem_Ico]
  omega

theorem takeWhile_append_cons_of_neg {α : Type} (p : α → Bool) (c : α) :
    ∀ (A B : List α), p c = false → (A ++ c :: B).takeWhile p = A.takeWhile p
  | [], B, hc => by simp [List.takeWhile_cons, hc]
  | a :: A, B, hc => by
    simp only [List.cons_append, List.takeWhile_cons]
    cases h : p a
    · rfl
    · rw [takeWhile_append_cons_of_neg p c A B hc]

/-- A straddling chunk `[100, 199]` with its 100-record blob, used with
target 150. -/
def straddleChunk : TransactionChunk := ⟨100, 199, 1, 2⟩

/-- Storage serving `straddleChunk` through one manifest. -/
def straddleStorage : BackupStorage where
  manifests := fun _ => some ⟨[straddleChunk]⟩
  recordFiles := fun _ => some (sampleRecords 100)
  proofFiles := fun _ => some (0, 7)

/-- C6 counterexample: in VerifyOnly mode, a run with target 150 over the
chunk `[100, 199]` verifies the whole chunk and advances the verified
gauge to 199 — a version greater than the target — because clipping happens
only on the save/replay path, while load-time proof verification and the
verify fold consume the unclipped chunk.  The claim that no version greater
than `target_version` is ever verified is therefore false. -/
theorem truncation_counterexample :
    Effect.setVerifyGauge 199 ∈
      (run_impl straddleStorage (fun _ _ _ _ => true) (fun _ => true)
        ⟨[0], none, 150, .verify⟩ none).1
    ∧ 150 < 199 := ⟨by decide, by decide⟩

/-- C6 amended: no version greater than `target_version` is ever saved or
replayed: a chunk descriptor whose `first_version` exceeds the target is
excluded from discovery and nothing after it is inspected, and on the
save/replay path a chunk straddling the bound is clipped to exactly
`target_version - first_version + 1` leading records, every saved or
replayed version lying at or below the target.  (Load-time verification and
the VerifyOnly gauge, by contrast, cover the full chunk, including versions
beyond the target.) -/
theorem truncation_amended :
    (∀ (target : Nat) (A B : List TransactionChunk) (c : TransactionChunk),
      target < c.first_version →
      discoverChunks target (A ++ c :: B) = discoverChunks target A)
    ∧ (∀ (ftr target : Nat) (lc : LoadedChunk),
      lc.records.length = lc.manifest.last_version + 1 - lc.manifest.first_version →
      lc.manifest.first_version ≤ lc.manifest.last_version →
      lc.manifest.first_version ≤ target →
      target < lc.manifest.last_version →
      (processChunk ftr target lc).to_save ++ (processChunk ftr target lc).to_replay =
          lc.records.take (target - lc.manifest.first_version + 1)
        ∧ (processChunk ftr target lc).to_save.length
            + (processChunk ftr target lc).to_replay.length
            = target - lc.manifest.first_version + 1
        ∧ ∀ v ∈ chunkSavedVersions ftr target lc ∪ chunkReplayedVersions ftr target lc,
            v ≤ target) := by
  constructor
  · intro target A B c hc
    unfold discoverChunks
    rw [takeWhile_append_cons_of_neg _ c A B (decide_eq_false (by omega))]
  · intro ftr target lc hlen hfl hft hstrad
    refine ⟨?_, ?_, ?_⟩
    · simp only [processChunk]
      split_ifs
      all_goals first
        | exact List.take_append_drop _ _
        | exact List.nil_append _
    · rw [processChunk_save_length ftr target lc hlen hfl hft,
        processChunk_replay_length ftr target lc hlen hfl hft]
      omega
    · intro v hv
      rw [chunkSavedVersions_eq ftr target lc hlen hfl hft,
        chunkReplayedVersions_eq ftr target lc hlen hfl hft] at hv
      simp only [Finset.mem_union, Finset.mem_Ico] at hv
      omega

/-- C6 witness: target 150 excludes the chunk starting at 200 (and inspects
nothing after it), and splits the straddling chunk `[100, 199]` into exactly
51 processed records. -/
theorem truncation_amended_witness :
    discoverChunks 150 ([] ++ ⟨200, 250, 1, 2⟩ :: [⟨300, 350, 3, 4⟩]) = discoverChunks 150 []
    ∧ (150 : Nat) < 199
    ∧ (processChunk 120 150 ⟨straddleChunk, sampleRecords 100, 0, 7⟩).to_save.length
        + (processChunk 120 150 ⟨straddleChunk, sampleRecords 100, 0, 7⟩).to_replay.length
        = 51 := by
  have h := truncation_amended
  exact ⟨h.1 150 [] [⟨300, 350, 3, 4⟩] ⟨200, 250, 1, 2⟩ (by decide), by decide,
    (h.2 120 150 ⟨straddleChunk, sampleRecords 100, 0, 7⟩ (by decide) (by decide) (by decide)
      (by decide)).2.1⟩

/-! Trace structure of the loaded-chunk stream. -/

theorem loadedChunkStream_fst (storage : BackupStorage) (tlv : TxnListVerify)
    (mverify : TransactionBackup → Bool) (eh : Option EpochHistory)
    (target : Nat) (handles : List Nat) :
    (loadedChunkStream storage tlv mverify eh target handles).1 =
      (fetchManifests storage handles).1 := rfl

theorem loadedChunkStream_snd (storage : BackupStorage) (tlv : TxnListVerify)
    (mverify : TransactionBackup → Bool) (eh : Option EpochHistory)
    (target : Nat) (handles : List Nat) :
    (loadedChunkStream storage tlv mverify eh target handles).2 =
      (fetchManifests storage handles).2.bind fun ms =>
        (verifyManifests mverify ms).bind fun ms2 =>
          (discoverChunks target (ms2.flatMap TransactionBackup.chunks)).bind fun chunks =>
            loadChunks storage tlv eh chunks := rfl

theorem fetchManifests_effects (storage : BackupStorage) :
    ∀ (handles : List Nat) (e : Effect), e ∈ (fetchManifests storage handles).1 →
      ∃ h, e = .fetchManifest h
  | [], e, he => absurd he (by simp [fetchManifests])
  | h :: rest, e, he => by
    unfold fetchManifests at he
    cases hm : storage.manifests h with
    | none =>
      rw [hm] at he
      simp only [List.mem_singleton] at he
      exact ⟨h, he⟩
    | some m =>
      rw [hm] at he
      simp only [List.mem_cons] at he
      rcases he with he | he
      · exact ⟨h, he⟩
      · exact fetchManifests_effects storage rest e he

/-- C8: in VerifyOnly mode a run mutates no target store: every effect of
the run is a manifest fetch or a verified-version gauge update — the
stream is folded, the watermark gauge advances, and no save, replay,
commit, frozen-subtree write or state-store reset is ever invoked. -/
theorem verify_mode_no_mutation (storage : BackupStorage) (tlv : TxnListVerify)
    (mverify : TransactionBackup → Bool) (eh : Option EpochHistory)
    (handles : List Nat) (rfv : Option Nat) (target : Nat) :
    ∀ e ∈ (run_impl storage tlv mverify ⟨handles, rfv, target, .verify⟩ eh).1,
      e.isMutation = false := by
  intro e he
  simp only [run_impl] at he
  split at he
  · simp at he
  · split at he
    next res e0 heq =>
      dsimp only at he
      rw [loadedChunkStream_fst] at he
      obtain ⟨h, rfl⟩ := fetchManifests_effects storage handles e he
      rfl
    next res heq =>
      dsimp only at he
      rw [loadedChunkStream_fst] at he
      obtain ⟨h, rfl⟩ := fetchManifests_effects storage handles e he
      rfl
    next res c0 rest heq =>
      dsimp only at he
      rw [loadedChunkStream_fst, List.mem_append] at he
      rcases he with he | he
      · obtain ⟨h, rfl⟩ := fetchManifests_effects storage handles e he
        rfl
      · rw [List.mem_map] at he
        obtain ⟨lc, _, rfl⟩ := he
        rfl

/-- C8 witness: the VerifyOnly run over the straddling chunk performs the
gauge update effect, which is not a mutation. -/
theorem verify_mode_no_mutation_witness :
    Effect.setVerifyGauge 199 ∈
      (run_impl straddleStorage (fun _ _ _ _ => true) (fun _ => true)
        ⟨[0], none, 150, .verify⟩ none).1
    ∧ (Effect.setVerifyGauge 199).isMutation = false :=
  ⟨by decide, verify_mode_no_mutation straddleStorage (fun _ _ _ _ => true) (fun _ => true)
    none [0] none 150 (Effect.setVerifyGauge 199) (by decide)⟩

/-- C10: a run with a non-empty manifest-handle list whose discovered
loaded-chunk stream is empty (for example, every chunk's `first_version`
exceeds `target_version`) fails with the "LoadedChunk stream is empty."
error rather than succeeding — in contrast to the zero-handle case, which
succeeds immediately. -/
theorem empty_stream_error (storage : BackupStorage) (tlv : TxnListVerify)
    (mverify : TransactionBackup → Bool) (eh : Option EpochHistory)
    (ctl : TransactionRestoreBatchController) (ms : List TransactionBackup)
    (hne : ctl.manifest_handles ≠ [])
    (hfetch : (fetchManifests storage ctl.manifest_handles).2 = .ok ms)
    (hver : verifyManifests mverify ms = .ok ms)
    (hempty : (ms.flatMap TransactionBackup.chunks).takeWhile
        (fun c => decide (c.first_version ≤ ctl.target_version)) = []) :
    (run_impl storage tlv mverify ctl eh).2 = .error .streamEmpty := by
  have hs : ctl.manifest_handles.isEmpty = false := by
    cases h : ctl.manifest_handles with
    | nil => exact absurd h hne
    | cons a l => rfl
  have hstream : (loadedChunkStream storage tlv mverify eh ctl.target_version
      ctl.manifest_handles).2 = .ok [] := by
    rw [loadedChunkStream_snd, hfetch]
    show (verifyManifests mverify ms).bind _ = .ok []
    rw [hver]
    show (discoverChunks ctl.target_version (ms.flatMap TransactionBackup.chunks)).bind _
      = .ok []
    unfold discoverChunks
    rw [hempty]
    rfl
  have hpair : loadedChunkStream storage tlv mverify eh ctl.target_version ctl.manifest_handles
      = ((loadedChunkStream storage tlv mverify eh ctl.target_version
          ctl.manifest_handles).1,
        (Except.ok [] : Except RestoreError (List LoadedChunk))) := by
    rw [← hstream]
  unfold run_impl
  rw [hpair]
  simp [hs]

/-- Storage whose single manifest has one chunk starting past the target. -/
def outOfRangeStorage : BackupStorage where
  manifests := fun _ => some ⟨[⟨200, 250, 1, 2⟩]⟩
  recordFiles := fun _ => none
  proofFiles := fun _ => none

/-- C10 witness: one manifest handle whose only chunk starts at 200 with
target 150 yields the stream-empty error. -/
theorem empty_stream_error_witness :
    ([0] : List Nat) ≠ []
    ∧ (run_impl outOfRangeStorage (fun _ _ _ _ => true) (fun _ => true)
        ⟨[0], none, 150, .verify⟩ none).2 = .error .streamEmpty :=
  ⟨by decide, empty_stream_error outOfRangeStorage (fun _ _ _ _ => true) (fun _ => true) none
    ⟨[0], none, 150, .verify⟩ [⟨[⟨200, 250, 1, 2⟩]⟩] (by decide) rfl rfl (by decide)⟩

/-! The partition of a run's version range between raw save and replay. -/

theorem mem_foldr_union (f : LoadedChunk → Finset Nat) :
    ∀ (cs : List LoadedChunk) (v : Nat),
      (v ∈ cs.foldr (fun c acc => f c ∪ acc) ∅) ↔ ∃ c ∈ cs, v ∈ f c
  | [], v => by simp
  | c :: cs, v => by
    simp only [List.foldr_cons, Finset.mem_union, mem_foldr_union f cs v, List.mem_cons]
    constructor
    · rintro (h | ⟨c2, hc2, hv⟩)
      · exact ⟨c, Or.inl rfl, h⟩
      · exact ⟨c2, Or.inr hc2, hv⟩
    · rintro ⟨c2, rfl | hc2, hv⟩
      · exact Or.inl hv
      · exact Or.inr ⟨c2, hc2, hv⟩

theorem chunkRanges_cover (target : Nat) :
    ∀ (cs : List LoadedChunk) (c : LoadedChunk),
      (∀ lc ∈ c :: cs, lc.manifest.first_version ≤ lc.manifest.last_version
        ∧ lc.manifest.first_version ≤ target) →
      List.Chain' (fun a b => b.manifest.first_version = a.manifest.last_version + 1)
        (c :: cs) →
      target ≤ ((c :: cs).getLast (List.cons_ne_nil c cs)).manifest.last_version →
      (c :: cs).foldr (fun lc acc =>
        Finset.Ico lc.manifest.first_version (min lc.manifest.last_version target + 1) ∪ acc)
        ∅ = Finset.Ico c.manifest.first_version (target + 1)
  | [], c, hwf, _, hcover => by
    simp only [List.getLast_singleton] at hcover
    simp only [List.foldr_cons, List.foldr_nil, Finset.union_empty]
    have h := hwf c (List.mem_cons_self c [])
    congr 1
    omega
  | c2 :: rest, c, hwf, hchain, hcover => by
    rw [List.chain'_cons] at hchain
    have h1 : c2.manifest.first_version = c.manifest.last_version + 1 := hchain.1
    have h2 := hwf c (List.mem_cons_self c (c2 :: rest))
    have h3 := hwf c2 (List.mem_cons_of_mem c (List.mem_cons_self c2 rest))
    have hlt : c.manifest.last_version < target := by omega
    have hcover2 : target ≤
        ((c2 :: rest).getLast (List.cons_ne_nil c2 rest)).manifest.last_version := by
      rwa [List.getLast_cons (List.cons_ne_nil c2 rest)] at hcover
    have ih := chunkRanges_cover target rest c2
      (fun lc hlc => hwf lc (List.mem_cons_of_mem c hlc)) hchain.2 hcover2
    simp only [List.foldr_cons] at ih ⊢
    rw [ih, Nat.min_eq_left (Nat.le_of_lt hlt), h1,
      Finset.Ico_union_Ico_eq_Ico (by omega) (by omega)]

/-- C1: in Restore mode, over any contiguous discovered chunk sequence that
starts at `global_first_version` and covers `target_version`, the set of
versions passed to the raw-save call and the set forwarded to the replay
stream are disjoint and their union is exactly
`[global_first_version, target_version]`; each chunk is split so that
versions in `[first_version, min(cutoff, last_version + 1))` are saved and
versions in `[max(cutoff, first_version), last_version]` (after clipping to
`target_version`) are replayed. -/
theorem restore_partition (ftr target gfv : Nat) (cs : List LoadedChunk)
    (hne : cs ≠ [])
    (hwf : ∀ lc ∈ cs,
      lc.records.length = lc.manifest.last_version + 1 - lc.manifest.first_version
      ∧ lc.manifest.first_version ≤ lc.manifest.last_version
      ∧ lc.manifest.first_version ≤ target)
    (hchain : List.Chain'
      (fun a b => b.manifest.first_version = a.manifest.last_version + 1) cs)
    (hhead : (cs.head hne).manifest.first_version = gfv)
    (hcover : target ≤ (cs.getLast hne).manifest.last_version) :
    Disjoint (runSavedVersions ftr target cs) (runReplayedVersions ftr target cs)
    ∧ runSavedVersions ftr target cs ∪ runReplayedVersions ftr target cs
        = Finset.Ico gfv (target + 1)
    ∧ ∀ lc ∈ cs,
        chunkSavedVersions ftr target lc =
          Finset.Ico lc.manifest.first_version
            (min ftr (min lc.manifest.last_version target + 1))
        ∧ chunkReplayedVersions ftr target lc =
          Finset.Ico (max ftr lc.manifest.first_version)
            (min lc.manifest.last_version target + 1) := by
  have hchar : ∀ lc ∈ cs,
      chunkSavedVersions ftr target lc =
        Finset.Ico lc.manifest.first_version
          (min ftr (min lc.manifest.last_version target + 1))
      ∧ chunkReplayedVersions ftr target lc =
        Finset.Ico (max ftr lc.manifest.first_version)
          (min lc.manifest.last_version target + 1) := fun lc hlc =>
    ⟨chunkSavedVersions_eq ftr target lc (hwf lc hlc).1 (hwf lc hlc).2.1 (hwf lc hlc).2.2,
     chunkReplayedVersions_eq ftr target lc (hwf lc hlc).1 (hwf lc hlc).2.1 (hwf lc hlc).2.2⟩
  refine ⟨?_, ?_, hchar⟩
  · rw [Finset.disjoint_left]
    intro v hvS hvR
    rw [runSavedVersions, mem_foldr_union] at hvS
    rw [runReplayedVersions, mem_foldr_union] at hvR
    obtain ⟨c, hc, hvc⟩ := hvS
    obtain ⟨c2, hc2, hvc2⟩ := hvR
    rw [(hchar c hc).1] at hvc
    rw [(hchar c2 hc2).2] at hvc2
    simp only [Finset.mem_Ico] at hvc hvc2
    omega
  · obtain ⟨c, cs2, rfl⟩ : ∃ c cs2, cs = c :: cs2 := by
      cases cs with
      | nil => exact absurd rfl hne
      | cons c cs2 => exact ⟨c, cs2, rfl⟩
    have hcov := chunkRanges_cover target cs2 c
      (fun lc hlc => ⟨(hwf lc hlc).2.1, (hwf lc hlc).2.2⟩) hchain hcover
    have hhead2 : c.manifest.first_version = gfv := hhead
    ext v
    rw [Finset.mem_union, runSavedVersions, mem_foldr_union, runReplayedVersions,
      mem_foldr_union, ← hhead2, ← hcov, mem_foldr_union
        (fun lc => Finset.Ico lc.manifest.first_version
          (min lc.manifest.last_version target + 1))]
    constructor
    · rintro (⟨c2, hc2, hvc⟩ | ⟨c2, hc2, hvc⟩)
      · refine ⟨c2, hc2, ?_⟩
        rw [(hchar c2 hc2).1] at hvc
        simp only [Finset.mem_Ico] at hvc ⊢
        omega
      · refine ⟨c2, hc2, ?_⟩
        rw [(hchar c2 hc2).2] at hvc
        have h := (hwf c2 hc2).2.1
        simp only [Finset.mem_Ico] at hvc ⊢
        omega
    · rintro ⟨c2, hc2, hvc⟩
      simp only [Finset.mem_Ico] at hvc
      by_cases hv : v < ftr
      · refine Or.inl ⟨c2, hc2, ?_⟩
        rw [(hchar c2 hc2).1]
        simp only [Finset.mem_Ico]
        omega
      · refine Or.inr ⟨c2, hc2, ?_⟩
        rw [(hchar c2 hc2).2]
        simp only [Finset.mem_Ico]
        omega

/-- The three-chunk end-to-end scenario: chunks `[1, 10]`, `[11, 20]`,
`[21, 30]`, each with its full record blob. -/
def scenarioChunks : List LoadedChunk :=
  [⟨⟨1, 10, 1, 2⟩, sampleRecords 10, 0, 7⟩,
   ⟨⟨11, 20, 3, 4⟩, sampleRecords 10, 0, 7⟩,
   ⟨⟨21, 30, 5, 6⟩, sampleRecords 10, 0, 7⟩]

/-- C1 witness: with cutoff 15 and target 25 over the three-chunk scenario,
saved and replayed versions are disjoint and partition `[1, 25]`. -/
theorem restore_partition_witness :
    Disjoint (runSavedVersions 15 25 scenarioChunks)
      (runReplayedVersions 15 25 scenarioChunks)
    ∧ runSavedVersions 15 25 scenarioChunks ∪ runReplayedVersions 15 25 scenarioChunks
        = Finset.Ico 1 26 := by
  have h := restore_partition 15 25 1 scenarioChunks (by decide) (by decide)
    (List.Chain.cons rfl (List.Chain.cons rfl List.Chain.nil)) (by decide) (by decide)
  exact ⟨h.1, h.2.1⟩

/-! Ordered delivery under concurrent loads. -/

/-- Modelled from the spec: the ordered-buffering stream combinators
(`buffered_x` / `try_buffered_x`, defined in `utils/stream.rs`, which is not
part of this source) are described as "a fixed-size reorder buffer keyed by
arrival sequence number, releasing items to the consumer strictly in
submission order while up to `C` production tasks run concurrently".
`drainReady` releases the consecutively-numbered finished items starting at
`next`; the fuel is an upper bound on the buffer's size. -/
def drainReady : Nat → Nat → Finset Nat → List Nat × Nat × Finset Nat
  | 0, next, buf => ([], next, buf)
  | fuel + 1, next, buf =>
    if next ∈ buf then
      let r := drainReady fuel (next + 1) (buf.erase next)
      (next :: r.1, r.2)
    else ([], next, buf)

/-- Modelled from the spec: process the load-completion events in arrival
order; each completed sequence number enters the reorder buffer, after which
the buffer releases every consecutively-numbered item it holds. -/
def reorderRun : List Nat → Nat → Finset Nat → List Nat
  | [], _, _ => []
  | c :: cs, next, buf =>
    let buf2 := insert c buf
    let r := drainReady buf2.card next buf2
    r.1 ++ reorderRun cs r.2.1 r.2.2

/-- Modelled from the spec: the sequence of items the ordered buffer emits
to the consumer, given the completion order of the concurrent chunk loads
(sequence numbers are submission order). -/
def orderedBuffer (completions : List Nat) : List Nat := reorderRun completions 0 ∅

theorem drainReady_spec :
    ∀ (fuel next : Nat) (buf : Finset Nat), buf.card ≤ fuel →
    ∃ next2,
      next ≤ next2
      ∧ (drainReady fuel next buf).1 = List.range' next (next2 - next)
      ∧ (drainReady fuel next buf).2.1 = next2
      ∧ (drainReady fuel next buf).2.2 = buf \ Finset.Ico next next2
      ∧ Finset.Ico next next2 ⊆ buf
      ∧ next2 ∉ buf
  | 0, next, buf, hcard => by
    have hbuf : buf = ∅ := Finset.card_eq_zero.mp (Nat.le_zero.mp hcard)
    subst hbuf
    refine ⟨next, le_rfl, by simp [drainReady], by simp [drainReady], ?_, by simp, by simp⟩
    simp [drainReady]
  | fuel + 1, next, buf, hcard => by
    by_cases h : next ∈ buf
    · have hcard2 : (buf.erase next).card ≤ fuel := by
        rw [Finset.card_erase_of_mem h]
        omega
      obtain ⟨next2, hle, he, hn, hb, hsub, hnin⟩ :=
        drainReady_spec fuel (next + 1) (buf.erase next) hcard2
      refine ⟨next2, by omega, ?_, ?_, ?_, ?_, ?_⟩
      · simp only [drainReady, if_pos h]
        rw [he, show next2 - next = (next2 - (next + 1)) + 1 by omega]
        rfl
      · simp only [drainReady, if_pos h]
        exact hn
      · simp only [drainReady, if_pos h]
        rw [hb]
        ext a
        simp only [Finset.mem_sdiff, Finset.mem_erase, Finset.mem_Ico]
        constructor
        · rintro ⟨⟨hne, ha⟩, hni⟩
          exact ⟨ha, by omega⟩
        · rintro ⟨ha, hni⟩
          exact ⟨⟨by omega, ha⟩, by omega⟩
      · intro a ha
        rw [Finset.mem_Ico] at ha
        by_cases ha2 : a = next
        · subst ha2
          exact h
        · have hmem : a ∈ Finset.Ico (next + 1) next2 := by
            rw [Finset.mem_Ico]
            omega
          exact Finset.mem_of_mem_erase (hsub hmem)
      · intro hc
        exact hnin (Finset.mem_erase.mpr ⟨by omega, hc⟩)
    · refine ⟨next, le_rfl, ?_, ?_, ?_, by simp, h⟩
      · simp [drainReady, h]
      · simp [drainReady, h]
      · simp [drainReady, h]

theorem range_concat (a b c : Nat) (h1 : a ≤ b) (h2 : b ≤ c) :
    List.range' a (b - a) ++ List.range' b (c - b) = List.range' a (c - a) := by
  have h := List.range'_append a (b - a) (c - b) 1
  simp only [one_mul] at h
  rw [show a + (b - a) = b by omega] at h
  rw [h, show c - b + (b - a) = c - a by omega]

theorem reorderRun_spec :
    ∀ (cs : List Nat) (next : Nat) (buf : Finset Nat),
    next ∉ buf →
    ∃ next2 buf2,
      next ≤ next2
      ∧ reorderRun cs next buf = List.range' next (next2 - next)
      ∧ next2 ∉ buf2
      ∧ buf2 ∪ Finset.range next2 = buf ∪ Finset.range next ∪ cs.toFinset
  | [], next, buf, hnin => by
    refine ⟨next, buf, le_rfl, by simp [reorderRun], hnin, by simp⟩
  | c :: cs, next, buf, hnin => by
    obtain ⟨n1, hle1, he1, hn1, hb1, hsub1, hnin1⟩ :=
      drainReady_spec (insert c buf).card next (insert c buf) le_rfl
    have hnin2 : n1 ∉ insert c buf \ Finset.Ico next n1 := by
      rw [Finset.mem_sdiff]
      tauto
    obtain ⟨next2, buf2, hle2, he2, hnin3, hacc⟩ :=
      reorderRun_spec cs n1 (insert c buf \ Finset.Ico next n1) hnin2
    refine ⟨next2, buf2, by omega, ?_, hnin3, ?_⟩
    · simp only [reorderRun]
      rw [he1, hn1, hb1, he2]
      exact range_concat next n1 next2 hle1 (by omega)
    · rw [hacc]
      ext a
      simp only [Finset.mem_union, Finset.mem_sdiff, Finset.mem_insert, Finset.mem_range,
        Finset.mem_Ico, List.toFinset_cons, List.mem_toFinset]
      constructor
      · rintro ((⟨hic, hmid⟩ | hr) | hcs)
        · rcases hic with rfl | hb
          · exact Or.inr (Or.inl rfl)
          · exact Or.inl (Or.inl hb)
        · by_cases hx : a < next
          · exact Or.inl (Or.inr hx)
          · have hmem : a ∈ Finset.Ico next n1 := Finset.mem_Ico.mpr ⟨by omega, hr⟩
            have h2 := hsub1 hmem
            rw [Finset.mem_insert] at h2
            rcases h2 with rfl | hb
            · exact Or.inr (Or.inl rfl)
            · exact Or.inl (Or.inl hb)
        · exact Or.inr (Or.inr hcs)
      · rintro ((hb | hx) | (rfl | hcs))
        · by_cases hmid : next ≤ a ∧ a < n1
          · exact Or.inl (Or.inr hmid.2)
          · exact Or.inl (Or.inl ⟨Or.inr hb, hmid⟩)
        · exact Or.inl (Or.inr (by omega))
        · by_cases hmid : next ≤ a ∧ a < n1
          · exact Or.inl (Or.inr hmid.2)
          · exact Or.inl (Or.inl ⟨Or.inl rfl, hmid⟩)
        · exact Or.inr hcs

theorem toFinset_list_range (n : Nat) : (List.range n).toFinset = Finset.range n := by
  ext a
  simp [List.mem_toFinset, List.mem_range, Finset.mem_range]

theorem map_getD_range {α : Type} (l : List α) (d : α) :
    (List.range l.length).map (fun i => l.getD i d) = l := by
  induction l with
  | nil => rfl
  | cons a l ih =>
    rw [List.length_cons, List.range_succ_eq_map, List.map_cons, List.map_map]
    simp only [Function.comp_def, List.getD_cons_succ, List.getD_cons_zero]
    rw [ih]

/-- C7 (the combinator is modelled from the spec, see `orderedBuffer`):
for every execution with a concurrency ceiling and any completion order of
the concurrent chunk loads, the ordered buffer emits exactly the submission
sequence `0, 1, …, n-1`, in order — a chunk that finishes loading before
its predecessor stays buffered until the predecessor is emitted — so the
consumer observes the discovered chunks in submission (ascending version)
order. -/
theorem ordered_delivery (n : Nat) (completions : List Nat) (chunks : List LoadedChunk)
    (d : LoadedChunk)
    (hperm : completions.Perm (List.range n)) (hlen : chunks.length = n) :
    orderedBuffer completions = List.range n
    ∧ (orderedBuffer completions).map (fun i => chunks.getD i d) = chunks := by
  obtain ⟨next2, buf2, hle, he, hnin, hacc⟩ :=
    reorderRun_spec completions 0 ∅ (by simp)
  have hacc2 : buf2 ∪ Finset.range next2 = Finset.range n := by
    rw [hacc, List.toFinset_eq_of_perm _ _ hperm, toFinset_list_range]
    simp
  have h1 : next2 ≤ n := by
    rw [← Finset.range_subset]
    rw [← hacc2]
    exact Finset.subset_union_right
  have h2 : n ≤ next2 := by
    by_contra hcon
    push_neg at hcon
    have hmem : next2 ∈ Finset.range n := Finset.mem_range.mpr hcon
    rw [← hacc2, Finset.mem_union, Finset.mem_range] at hmem
    rcases hmem with hmem | hmem
    · exact hnin hmem
    · omega
  have hn : next2 = n := le_antisymm h1 h2
  have hmain : orderedBuffer completions = List.range n := by
    rw [orderedBuffer, he, hn, List.range_eq_range']
    rfl
  refine ⟨hmain, ?_⟩
  rw [hmain, ← hlen, map_getD_range]

/-- C7 witness: submission sequence of three chunks completing in the order
2, 0, 1 is still emitted as 0, 1, 2. -/
theorem ordered_delivery_witness :
    ([2, 0, 1] : List Nat).Perm (List.range 3)
    ∧ orderedBuffer [2, 0, 1] = List.range 3 := by
  have h := ordered_delivery 3 [2, 0, 1]
    (List.replicate 3 ⟨⟨0, 0, 0, 0⟩, [], 0, 0⟩) ⟨⟨0, 0, 0, 0⟩, [], 0, 0⟩
    (by decide) (by decide)
  exact ⟨by decide, h.1⟩

end TxnRestore
